import Mathlib

/-!
Verification development for the radial (pie) context menu widget
(`grm/radialmenu.py`).  The file shallowly embeds the slice-assignment
algorithm (`RadialMenu.update_slice_membership`), the cursor-velocity
tracker (`RadialMenu.track_cursor`), the selection resolver
(`RadialMenu.updateWidget`), the angle helper (`RadialMenu.angleFromPoints`)
and the release handler (`RadialMenu.mouseReleaseEvent`), and proves or
refutes the specified properties about them.

Machine numbers: slice indices are small nonnegative integers and are
modelled as `Nat`; screen coordinates come from `QPoint` and are modelled
as `Int`; per-tick cursor displacements and times are modelled as `Rat`
(the float arithmetic involved in the claims is exact on the sampled
values); the angle computation is genuine real arithmetic and is modelled
over `Real`.
-/

namespace RadialMenu

/-- The eight compass positions a radial item can occupy
(`RadialMenu.position_xy` keys). -/
inductive Pos where
  | E | SE | S | SW | W | NW | N | NE
deriving DecidableEq, Repr

/-- The static slice table `self.slices` from `RadialMenu.__init__`:
each position owns two of the sixteen 22.5 degree slices by default. -/
def slicesTable : Pos → List Nat
  | .E  => [15, 0]
  | .SE => [1, 2]
  | .S  => [3, 4]
  | .SW => [5, 6]
  | .W  => [7, 8]
  | .NW => [9, 10]
  | .N  => [11, 12]
  | .NE => [13, 14]

/-- `RadialMenu.pie_next`: successor slice index, wrapping 15 to 0.
The `pie_max` parameter of the source always keeps its default 15. -/
def pie_next (value : Nat) : Nat :=
  if value = 15 then 0 else value + 1

/-- `RadialMenu.pie_last`: predecessor slice index, wrapping 0 to 15.
The `pie_max` parameter of the source always keeps its default 15. -/
def pie_last (value : Nat) : Nat :=
  if value = 0 then 15 else value - 1

/-- A registered menu item as far as slice assignment is concerned:
its compass `position` (`none` for column items) and its mutable
`slices` attribute. -/
structure SItem where
  position : Option Pos
  slices : List Nat
deriving DecidableEq, Repr

/-- The first loop of `update_slice_membership`: look every item up in
the slice table (`self.slices[position]`, a `KeyError` -- modelled as
`none` -- when the position is `None`), reset `item.slices` to a copy of
its default pair, and accumulate `slices_used`. -/
def initSlices : List SItem → Option (List SItem × List Nat)
  | [] => some ([], [])
  | it :: rest =>
    match it.position with
    | none => none
    | some p =>
      (initSlices rest).map fun r =>
        (⟨some p, slicesTable p⟩ :: r.1, slicesTable p ++ r.2)

/-- One item step of the while loop body of `update_slice_membership`:
`n = pie_last(item.slices[0])` and `l = pie_next(item.slices[-1])` are
computed first, then each is appended to both the item and `slices_used`
when it is not yet used. -/
def passStepCore (sl : List Nat) (used : List Nat) : List Nat × List Nat :=
  let n := pie_last (sl.headD 0)
  let l := pie_next (sl.getLastD 0)
  let r1 := if n ∈ used then (sl, used) else (sl ++ [n], used ++ [n])
  if l ∈ r1.2 then r1 else (r1.1 ++ [l], r1.2 ++ [l])

/-- One full `for item in self.items` pass of the while loop of
`update_slice_membership`. -/
def passItems : List SItem → List Nat → List SItem × List Nat
  | [], used => ([], used)
  | it :: rest, used =>
    let r := passStepCore it.slices used
    let rr := passItems rest r.2
    (⟨it.position, r.1⟩ :: rr.1, rr.2)

/-- The `while len(slices_used) < 16` loop of `update_slice_membership`,
with explicit fuel (16 passes always suffice, see the termination
theorems below). -/
def sliceLoop : Nat → List SItem → List Nat → List SItem × List Nat
  | 0, items, used => (items, used)
  | fuel + 1, items, used =>
    if used.length < 16 then
      let r := passItems items used
      sliceLoop fuel r.1 r.2
    else (items, used)

/-- `RadialMenu.update_slice_membership`: reset all items to their
default slice pairs (failing on a column item, whose `None` position is
not a key of the slice table) and redistribute the unused slices. -/
def update_slice_membership (items : List SItem) : Option (List SItem × List Nat) :=
  (initSlices items).map fun r => sliceLoop 16 r.1 r.2

/-- `RadialMenu.add_item`: append the item; a radial item then triggers
`update_slice_membership` over all registered items (through
`add_radial_item`), a column item does not. -/
def add_item (items : List SItem) (item : SItem) : Option (List SItem) :=
  let appended := items ++ [item]
  match item.position with
  | some _ => (update_slice_membership appended).map (·.1)
  | none => some appended

/-- A sequence of `add_item` registrations starting from the empty menu. -/
def registerSeq (items : List SItem) : Option (List SItem) :=
  items.foldlM add_item []

/-- A fresh item as built by the `RadialMenuItem` constructor for a given
compass position (its `slices` attribute not yet assigned). -/
def mkItem (p : Pos) : SItem := ⟨some p, []⟩

/-! ### The slice-redistribution algorithm as worded by the spec

Section 4.1 of the spec describes the redistribution pass in terms of the
numerically-lowest member `m` and numerically-highest member `M` of each
slice set, claiming `(m-1) mod 16` and `(M+1) mod 16` when unused.  The
following definitions follow those words (for the refinement claim);
they are deliberately written from the spec, not from the code. -/

/-- Numerically-lowest member of a slice set (sets are kept as lists). -/
def listMin : List Nat → Nat
  | [] => 0
  | x :: xs => xs.foldl min x

/-- Numerically-highest member of a slice set. -/
def listMax : List Nat → Nat
  | [] => 0
  | x :: xs => xs.foldl max x

/-- One per-position step of the spec algorithm: claim `(m-1) mod 16` and
`(M+1) mod 16` when unused, where `m`/`M` are the numerically lowest and
highest members of the current slice set. -/
def specPassStep (sl used : List Nat) : List Nat × List Nat :=
  let m := listMin sl
  let bigM := listMax sl
  let prevOfMin := (m + 15) % 16
  let nextOfMax := (bigM + 1) % 16
  let r1 := if prevOfMin ∈ used then (sl, used) else (sl ++ [prevOfMin], used ++ [prevOfMin])
  if nextOfMax ∈ r1.2 then r1 else (r1.1 ++ [nextOfMax], r1.2 ++ [nextOfMax])

/-- One pass of the spec algorithm over the active positions in
registration order. -/
def specPassAll : List (Pos × List Nat) → List Nat → List (Pos × List Nat) × List Nat
  | [], used => ([], used)
  | e :: rest, used =>
    let r := specPassStep e.2 used
    let rr := specPassAll rest r.2
    ((e.1, r.1) :: rr.1, rr.2)

/-- The spec algorithm loop: repeat passes while the used set has fewer
than 16 members (fuel-bounded; on the inputs considered the loop is shown
to have reached its exit condition). -/
def specLoop : Nat → List (Pos × List Nat) → List Nat → List (Pos × List Nat) × List Nat
  | 0, entries, used => (entries, used)
  | fuel + 1, entries, used =>
    if used.length < 16 then
      let r := specPassAll entries used
      specLoop fuel r.1 r.2
    else (entries, used)

/-- The full spec algorithm `SliceMap.assignSlices`: start each active
position at its default pair, accumulate the defaults as used, then
redistribute per the spec wording. -/
def specAssignSlices (ps : List Pos) : List (Pos × List Nat) × List Nat :=
  specLoop 16 (ps.map fun p => (p, slicesTable p)) (ps.flatMap slicesTable)

/-! ### The redistribution algorithm as amended

The amended wording replaces "numerically-lowest member `m` and
numerically-highest member `M`" by "first element and last element of
the slice list in insertion order" (the values `pie_last` and `pie_next`
are applied to; all stored values stay below 16, for which `pie_last`
and `pie_next` are exactly the decrement and increment mod 16). -/

/-- One per-position step of the amended algorithm: claim the slice
before the first element and the slice after the last element of the
insertion-ordered slice list, when unused. -/
def amendedPassStep (sl used : List Nat) : List Nat × List Nat :=
  let f := sl.headD 0
  let la := sl.getLastD 0
  let beforeFirst := pie_last f
  let afterLast := pie_next la
  let r1 := if beforeFirst ∈ used then (sl, used) else (sl ++ [beforeFirst], used ++ [beforeFirst])
  if afterLast ∈ r1.2 then r1 else (r1.1 ++ [afterLast], r1.2 ++ [afterLast])

/-- One pass of the amended algorithm over the active positions in
registration order. -/
def amendedPassAll : List (Pos × List Nat) → List Nat → List (Pos × List Nat) × List Nat
  | [], used => ([], used)
  | e :: rest, used =>
    let r := amendedPassStep e.2 used
    let rr := amendedPassAll rest r.2
    ((e.1, r.1) :: rr.1, rr.2)

/-- The amended algorithm loop. -/
def amendedLoop : Nat → List (Pos × List Nat) → List Nat → List (Pos × List Nat) × List Nat
  | 0, entries, used => (entries, used)
  | fuel + 1, entries, used =>
    if used.length < 16 then
      let r := amendedPassAll entries used
      amendedLoop fuel r.1 r.2
    else (entries, used)

/-- The full amended algorithm over an ordered list of active positions. -/
def amendedAssignSlices (ps : List Pos) : List (Pos × List Nat) × List Nat :=
  amendedLoop 16 (ps.map fun p => (p, slicesTable p)) (ps.flatMap slicesTable)

/-! ### Velocity tracker (`RadialMenu.track_cursor`)

Cursor displacements (`math.hypot` of the integer cursor deltas) and
time deltas are fed to the tracker as samples; the claims only involve
exact sample values, modelled as rationals. -/

/-- The tracker-relevant state of the menu: the `gesture` flag, whether a
previous cursor sample is stored (`self.lastCursorPosition is not None`),
the two rolling sample buffers, and whether the polling timer runs. -/
structure TrackState where
  gesture : Bool
  hasLast : Bool
  cursorChange : List ℚ
  timeChange : List ℚ
  timerOn : Bool
deriving DecidableEq, Repr

/-- `RadialMenu.mean`: `float(sum(numbers)) / max(len(numbers), 1)`. -/
def mean (numbers : List ℚ) : ℚ :=
  numbers.sum / (max numbers.length 1 : Nat)

/-- `RadialMenu.timer_start`: reset gesture mode, forget the last cursor
sample, clear both buffers and start the timer. -/
def timer_start : TrackState :=
  { gesture := true, hasLast := false, cursorChange := [], timeChange := [], timerOn := true }

/-- `RadialMenu.track_cursor`, one timer tick.  `change` is the Euclidean
displacement from the stored cursor position and `timeChange` the elapsed
time (both ignored on the first tick, which only stores the sample).
`samples = 40` and `cursor_speed_tolerance = .02`.  When the buffer is
full the source shifts every element down by one index and writes the new
sample at index 39, which on the (always, since appends are guarded by
`len < 40`) at-most-40-element buffer is dropping the head and appending. -/
def track_cursor (st : TrackState) (change timeChange : ℚ) : TrackState :=
  if st.hasLast && st.gesture then
    let buf := if st.cursorChange.length < 40 then st.cursorChange ++ [change]
               else st.cursorChange.tail ++ [change]
    let tbuf := if st.cursorChange.length < 40 then st.timeChange ++ [timeChange]
                else st.timeChange.tail ++ [timeChange]
    let cursor_speed := mean buf
    if 40 - 1 < buf.length ∧ cursor_speed < 1/50 then
      { gesture := false, hasLast := true, cursorChange := buf, timeChange := tbuf,
        timerOn := false }
    else
      { st with hasLast := true, cursorChange := buf, timeChange := tbuf }
  else
    { st with hasLast := true }

/-! ### Selection resolver (`RadialMenu.updateWidget`)

Coordinates are `QPoint` integers.  The source gates selection on
`math.hypot(dx, dy) > 20`, which for integer deltas is exactly
`dx^2 + dy^2 > 400`; the embedding uses the squared comparison.  The
slice index `rad_slice = int(angle/22.5)` is derived from the real-valued
angle (see `angleFromPoints` below) and enters the scan as a parameter.
The widget-local coordinate mappings (`mapFromParent`, `mapFromGlobal`)
are translations owned by the toolkit and are modelled as the identity. -/

/-- An axis-aligned `QRect`; `contains` uses the closed integer bounds
`x .. x+w-1` and `y .. y+h-1`. -/
structure Rect where
  x : Int
  y : Int
  w : Int
  h : Int
deriving DecidableEq, Repr

/-- `QRect.contains` for a point. -/
def Rect.containsPt (r : Rect) (p : Int × Int) : Prop :=
  r.x ≤ p.1 ∧ p.1 ≤ r.x + r.w - 1 ∧ r.y ≤ p.2 ∧ p.2 ≤ r.y + r.h - 1

instance (r : Rect) (p : Int × Int) : Decidable (r.containsPt p) := by
  unfold Rect.containsPt; infer_instance

/-- A registered item as seen by the resolver: position, bounding
rectangle (`item.p_rect`) and assigned slices. -/
structure WItem where
  position : Option Pos
  p_rect : Rect
  slices : List Nat
deriving DecidableEq, Repr

/-- The column item scan: first rectangle (in stacking order) containing
the cursor wins.  The source iterates indices over the parallel
`column_widget.rects` and `column_widget.items` lists. -/
def colFind (cursor : Int × Int) : List Rect → List WItem → Option WItem
  | r :: rs, it :: its => if r.containsPt cursor then some it else colFind cursor rs its
  | _, _ => none

/-- The column phase of `updateWidget`: only when gesture mode is off and
a column rectangle exists and contains the cursor. -/
def columnPhase (gesture : Bool) (columnRect : Option Rect) (colRects : List Rect)
    (colItems : List WItem) (cursor : Int × Int) : Option WItem :=
  match columnRect with
  | none => none
  | some cr =>
    if gesture then none
    else if cr.containsPt cursor then colFind cursor colRects colItems else none

/-- The radial scan of `updateWidget`: column items (`position` `None`)
are skipped; a rectangle hit returns immediately (`break`); a slice hit
overwrites the tentative choice and scanning continues. -/
def radialScan (cursor : Int × Int) (radSlice : Nat) :
    List WItem → Option WItem → Option WItem
  | [], active => active
  | it :: rest, active =>
    match it.position with
    | none => radialScan cursor radSlice rest active
    | some _ =>
      if it.p_rect.containsPt cursor then some it
      else radialScan cursor radSlice rest (if radSlice ∈ it.slices then some it else active)

/-- `RadialMenu.updateWidget` selection logic: inside the 20 pixel dead
zone nothing is selected; otherwise the column phase runs first and, when
it selects nothing, the radial scan. -/
def updateWidget (startPos livePos : Int × Int) (radSlice : Nat) (gesture : Bool)
    (columnRect : Option Rect) (colRects : List Rect) (colItems : List WItem)
    (items : List WItem) : Option WItem :=
  let dx := startPos.1 - livePos.1
  let dy := startPos.2 - livePos.2
  let distSq := dx * dx + dy * dy
  if 400 < distSq then
    match columnPhase gesture columnRect colRects colItems livePos with
    | some it => some it
    | none => radialScan livePos radSlice items none
  else none

/-! ### Release handler (`RadialMenu.mouseReleaseEvent`) -/

/-- An item as seen by the release handler: its optional connected action
(`item.function`), which may fail. -/
structure AItem where
  function : Option (Unit → Except String Unit)

/-- Controller state touched by `mouseReleaseEvent`. -/
structure MenuState where
  activeItem : Option AItem
  columnEnabled : Bool
  timerOn : Bool
  hidden : Bool

/-- `RadialMenu.mouseReleaseEvent`: hide the popup, run the active item
action inside `try/except` (an exception is printed -- returned here as
the logged second component -- and never propagated), then clear the
active item, disable the column widget and stop the timer. -/
def mouseReleaseEvent (s : MenuState) : MenuState × Option String :=
  let logged : Option String :=
    match s.activeItem with
    | some it =>
      match it.function with
      | some f =>
        match f () with
        | .ok _ => none
        | .error e => some e
      | none => none
    | none => none
  ({ activeItem := none, columnEnabled := false, timerOn := false, hidden := true }, logged)

end RadialMenu

/-! ### Angle computation (`RadialMenu.angleFromPoints`), over the reals -/

namespace RadialMenu

/-- `RadialMenu.angleFromPoints`: `math.atan2(dy, dx)` is the argument of
the complex number `dx + dy*I`; `math.degrees` multiplies by `180/pi`;
negative results are shifted by 360. -/
noncomputable def angleFromPoints (p1 p2 : ℝ × ℝ) : ℝ :=
  let radians := Complex.arg ⟨p2.1 - p1.1, p2.2 - p1.2⟩
  let degrees := radians * 180 / Real.pi
  if degrees < 0 then degrees + 360 else degrees

/-- The slice index `rad_slice = int(angle/22.5)` computed in
`updateWidget`; `int` truncation coincides with the floor on the
nonnegative angles `angleFromPoints` produces. -/
noncomputable def rad_slice (angle : ℝ) : ℤ := ⌊angle / 22.5⌋

end RadialMenu

/-! ## Cyclic arcs of slices -/

namespace RadialMenu

/-- Membership in the cyclic arc of `len` consecutive slices starting at
slice `b` (all indices taken modulo 16). -/
def inArc (b len y : Nat) : Prop := ∃ i, i < len ∧ y = (b + i) % 16

instance instDecidableInArc (b len y : Nat) : Decidable (inArc b len y) :=
  decidable_of_iff (∃ i ∈ List.range len, y = (b + i) % 16) (by simp [inArc, List.mem_range])

/-- The last slice of the arc of `len` slices starting at `b`. -/
def arcTop (b len : Nat) : Nat := (b + len - 1) % 16

/-- A list of slice indices is contiguous modulo 16: some cyclic arc of
its own length has exactly its members. -/
def contiguousMod16 (l : List Nat) : Prop :=
  ∃ b, b < 16 ∧ (∀ y ∈ l, inArc b l.length y) ∧ ∀ i, i < l.length → (b + i) % 16 ∈ l

instance instDecidableContiguous (l : List Nat) : Decidable (contiguousMod16 l) :=
  decidable_of_iff (∃ b ∈ List.range 16, (∀ y ∈ l, inArc b l.length y) ∧
      ∀ i ∈ List.range l.length, (b + i) % 16 ∈ l)
    (by simp [contiguousMod16, List.mem_range])

/-- Antipodal compass positions. -/
def antipode : Pos → Pos
  | .N => .S
  | .S => .N
  | .E => .W
  | .W => .E
  | .NE => .SW
  | .SW => .NE
  | .NW => .SE
  | .SE => .NW

/-! ## Helper lemmas -/

theorem initSlices_isSome_iff (items : List SItem) :
    (initSlices items).isSome = true ↔ ∀ it ∈ items, it.position.isSome = true := by
  induction items with
  | nil => simp [initSlices]
  | cons it rest ih =>
    cases hpos : it.position with
    | none => simp [initSlices, hpos]
    | some p => simp [initSlices, hpos, ih]

theorem update_isSome_iff (items : List SItem) :
    (update_slice_membership items).isSome = true ↔ ∀ it ∈ items, it.position.isSome = true := by
  unfold update_slice_membership
  rw [← initSlices_isSome_iff]
  cases initSlices items <;> simp

theorem radialScan_rect_wins (cursor : Int × Int) (radSlice : Nat) (itj : WItem)
    (post : List WItem) (hq : itj.position.isSome = true)
    (hrect : itj.p_rect.containsPt cursor) :
    ∀ (pre : List WItem) (acc : Option WItem),
      (∀ it ∈ pre, ¬ it.p_rect.containsPt cursor) →
      radialScan cursor radSlice (pre ++ itj :: post) acc = some itj := by
  intro pre
  induction pre with
  | nil =>
    intro acc _
    obtain ⟨q, hq2⟩ := Option.isSome_iff_exists.mp hq
    simp [radialScan, hq2, if_pos hrect]
  | cons it rest ih =>
    intro acc hpre
    have hit : ¬ it.p_rect.containsPt cursor := hpre it (by simp)
    have hrest : ∀ x ∈ rest, ¬ x.p_rect.containsPt cursor := fun x hx => hpre x (by simp [hx])
    cases hpos : it.position with
    | none =>
      simpa [radialScan, hpos] using ih acc hrest
    | some p =>
      simpa [radialScan, hpos, if_neg hit] using ih _ hrest

/-! ## Claim theorems (first group) -/

/-- C3: when exactly two radial items at opposite positions are
registered, each one is assigned exactly 8 slices and each of the two
slice lists is contiguous modulo 16. -/
theorem c3_opposite_pairs (p : Pos) :
    ∃ a b : SItem, registerSeq [mkItem p, mkItem (antipode p)] = some [a, b] ∧
      a.slices.length = 8 ∧ b.slices.length = 8 ∧
      contiguousMod16 a.slices ∧ contiguousMod16 b.slices := by
  cases p <;> exact ⟨_, _, rfl, by decide, by decide, by decide, by decide⟩

/-- C7: whenever the squared distance between the session origin and the
cursor is at most 400 (that is, `math.hypot` distance at most the 20
pixel dead-zone radius), `updateWidget` selects no item, for every
cursor slice, gesture state and item configuration. -/
theorem c7_dead_zone_resolves_none (startPos livePos : Int × Int) (radSlice : Nat)
    (gesture : Bool) (columnRect : Option Rect) (colRects : List Rect)
    (colItems : List WItem) (items : List WItem)
    (hdist : (startPos.1 - livePos.1) * (startPos.1 - livePos.1) +
      (startPos.2 - livePos.2) * (startPos.2 - livePos.2) ≤ 400) :
    updateWidget startPos livePos radSlice gesture columnRect colRects colItems items
      = none := by
  simp only [updateWidget]
  rw [if_neg (not_lt.mpr hdist)]

/-- C7 witness at a concrete configuration inside the dead zone. -/
theorem c7_witness :
    ((0 - 3 : Int) * (0 - 3) + (0 - 4 : Int) * (0 - 4) ≤ 400)
    ∧ updateWidget (0, 0) (3, 4) 2 true none [] []
        [⟨some .E, ⟨0, 0, 500, 500⟩, [2]⟩] = none :=
  ⟨by decide, c7_dead_zone_resolves_none (0, 0) (3, 4) 2 true none [] []
    [⟨some .E, ⟨0, 0, 500, 500⟩, [2]⟩] (by decide)⟩

/-- C8: in the radial scan (outside the dead zone, with the column phase
selecting nothing), a bounding-rectangle match dominates a slice match
regardless of registration order: when an earlier item owns the cursor
slice but only a later item contains the cursor point in its rectangle,
the rectangle owner is returned. -/
theorem c8_rect_beats_slice (startPos livePos : Int × Int) (radSlice : Nat) (gesture : Bool)
    (columnRect : Option Rect) (colRects : List Rect) (colItems : List WItem)
    (pre post : List WItem) (iti itj : WItem) (pSlice pRect : Pos)
    (hdist : 400 < (startPos.1 - livePos.1) * (startPos.1 - livePos.1) +
      (startPos.2 - livePos.2) * (startPos.2 - livePos.2))
    (hcol : columnPhase gesture columnRect colRects colItems livePos = none)
    (_hi : iti ∈ pre) (_hiP : iti.position = some pSlice) (_hiS : radSlice ∈ iti.slices)
    (hjP : itj.position = some pRect) (hjR : itj.p_rect.containsPt livePos)
    (hpre : ∀ it ∈ pre, ¬ it.p_rect.containsPt livePos) :
    updateWidget startPos livePos radSlice gesture columnRect colRects colItems
      (pre ++ itj :: post) = some itj := by
  simp only [updateWidget]
  rw [if_pos hdist, hcol]
  exact radialScan_rect_wins livePos radSlice itj post (by rw [hjP]; rfl) hjR pre none hpre

/-- C8 witness: two radial items, the first owning the cursor slice, the
second (and only the second) containing the cursor in its rectangle. -/
theorem c8_witness :
    (400 < ((0 : Int) - 100) * (0 - 100) + ((0 : Int) - 0) * (0 - 0))
    ∧ columnPhase true none [] [] (100, 0) = none
    ∧ (⟨some Pos.E, ⟨0, 0, 1, 1⟩, [0, 15]⟩ : WItem) ∈ [(⟨some Pos.E, ⟨0, 0, 1, 1⟩, [0, 15]⟩ : WItem)]
    ∧ (0 : Nat) ∈ [0, 15]
    ∧ (⟨90, -5, 20, 10⟩ : Rect).containsPt (100, 0)
    ∧ updateWidget (0, 0) (100, 0) 0 true none [] []
        ([⟨some Pos.E, ⟨0, 0, 1, 1⟩, [0, 15]⟩] ++ [⟨some Pos.SE, ⟨90, -5, 20, 10⟩, [1, 2]⟩])
      = some ⟨some Pos.SE, ⟨90, -5, 20, 10⟩, [1, 2]⟩ :=
  ⟨by decide, rfl, by simp, by decide, by decide,
    c8_rect_beats_slice (0, 0) (100, 0) 0 true none [] []
      [⟨some Pos.E, ⟨0, 0, 1, 1⟩, [0, 15]⟩] [] ⟨some Pos.E, ⟨0, 0, 1, 1⟩, [0, 15]⟩
      ⟨some Pos.SE, ⟨90, -5, 20, 10⟩, [1, 2]⟩ Pos.E Pos.SE (by decide) rfl (by simp)
      rfl (by decide) rfl (by decide) (by decide)⟩

/-- C9: when the active item has a connected action that raises, the
release handler swallows the error (returning it only as the logged
value) and leaves the controller closed: no active item, column widget
disabled, polling timer stopped, popup hidden. -/
theorem c9_release_swallows_errors (s : MenuState) (it : AItem)
    (f : Unit → Except String Unit) (e : String)
    (hact : s.activeItem = some it) (hf : it.function = some f)
    (herr : f () = Except.error e) :
    mouseReleaseEvent s =
      ({ activeItem := none, columnEnabled := false, timerOn := false, hidden := true },
        some e) := by
  simp [mouseReleaseEvent, hact, hf, herr]

/-- C9 witness at a concrete state whose action always raises. -/
theorem c9_witness :
    (({ activeItem := some ⟨some fun _ => Except.error "boom"⟩, columnEnabled := true,
        timerOn := true, hidden := false } : MenuState).activeItem
        = some ⟨some fun _ => Except.error "boom"⟩)
    ∧ mouseReleaseEvent
        { activeItem := some ⟨some fun _ => Except.error "boom"⟩, columnEnabled := true,
          timerOn := true, hidden := false } =
      ({ activeItem := none, columnEnabled := false, timerOn := false, hidden := true },
        some "boom") :=
  ⟨rfl, c9_release_swallows_errors _ ⟨some fun _ => Except.error "boom"⟩
    (fun _ => Except.error "boom") "boom" rfl rfl rfl⟩

/-- C10: slice recomputation walks every registered item and looks its
position up in the 8-position table, so a radial registration after any
column item fails with a key-lookup error, and slice assignment succeeds
exactly when every registered item has a compass position. -/
theorem c10_column_blocks_radial_add :
    (∀ (prior : List SItem) (item : SItem) (p : Pos), item.position = some p →
      (∃ itc ∈ prior, itc.position = none) → add_item prior item = none)
    ∧ ∀ items : List SItem,
        (update_slice_membership items).isSome = true ↔
          ∀ it ∈ items, it.position.isSome = true := by
  refine ⟨?_, update_isSome_iff⟩
  rintro prior item p hp ⟨itc, hmem, hnone⟩
  have hupd : update_slice_membership (prior ++ [item]) = none := by
    cases hu : update_slice_membership (prior ++ [item]) with
    | none => rfl
    | some r =>
      have := (update_isSome_iff (prior ++ [item])).mp (by rw [hu]; rfl) itc
        (List.mem_append_left _ hmem)
      rw [hnone] at this
      exact absurd this (by simp)
  simp [add_item, hp, hupd]

/-- C10 witness: registering a radial item after a column item fails. -/
theorem c10_witness :
    ((mkItem .N).position = some .N
      ∧ ∃ itc ∈ [(⟨none, []⟩ : SItem)], itc.position = none)
    ∧ add_item [⟨none, []⟩] (mkItem .N) = none :=
  ⟨⟨rfl, ⟨⟨none, []⟩, by simp⟩⟩,
    c10_column_blocks_radial_add.1 [⟨none, []⟩] (mkItem .N) Pos.N rfl
      ⟨⟨none, []⟩, by simp⟩⟩

/-- C1 counterexample: registering two radial items that share position N
(allowed by `add_item`) assigns slices 11 and 12 to both items, so the
assigned slice sets of the radial items are not pairwise disjoint and do
not form a partition. -/
theorem c1_counterexample :
    ∃ a b : SItem, registerSeq [mkItem .N, mkItem .N] = some [a, b] ∧
      11 ∈ a.slices ∧ 11 ∈ b.slices ∧ 12 ∈ a.slices ∧ 12 ∈ b.slices :=
  ⟨_, _, rfl, by decide, by decide, by decide, by decide⟩

/-- C2 counterexample: on the active positions `[E, S]` the implemented
redistribution and the spec algorithm (lowest and highest member based)
produce different position-to-slice-set mappings, although the spec
algorithm does reach its exit condition (16 used slices) on this input. -/
theorem c2_counterexample :
    ((update_slice_membership [mkItem .E, mkItem .S]).map fun r =>
        r.1.map fun it => it.slices.toFinset)
      ≠ some ((specAssignSlices [.E, .S]).1.map fun e => e.2.toFinset)
    ∧ (specAssignSlices [.E, .S]).2.length = 16 :=
  ⟨by decide, by decide⟩

/-- C4 counterexample: with three radial items all registered at N the
redistribution loop exits (the used list reaches length 16) but the used
slice set is not all 16 slices: slices 6, 7, 8, 9 are never assigned. -/
theorem c4_counterexample :
    ∃ its used, update_slice_membership [mkItem .N, mkItem .N, mkItem .N] = some (its, used) ∧
      used.toFinset ≠ Finset.range 16 ∧
      (its.flatMap SItem.slices).toFinset ≠ Finset.range 16 :=
  ⟨_, _, rfl, by decide, by decide⟩

/-! ## Angle claims (C5) -/

/-- C5: for every pair of distinct points the angle is normalized into
[0, 360), and the derived slice index floor(angle / 22.5) maps angle 0 to
slice 0 and every angle in [337.5, 360) to slice 15. -/
theorem c5_angle_range_and_slices :
    (∀ p1 p2 : ℝ × ℝ, p1 ≠ p2 →
      0 ≤ angleFromPoints p1 p2 ∧ angleFromPoints p1 p2 < 360)
    ∧ rad_slice 0 = 0
    ∧ ∀ a : ℝ, 337.5 ≤ a → a < 360 → rad_slice a = 15 := by
  refine ⟨?_, ?_, ?_⟩
  · intro p1 p2 _
    simp only [angleFromPoints]
    have h1 : -Real.pi < Complex.arg ⟨p2.1 - p1.1, p2.2 - p1.2⟩ :=
      Complex.neg_pi_lt_arg _
    have h2 : Complex.arg ⟨p2.1 - p1.1, p2.2 - p1.2⟩ ≤ Real.pi :=
      Complex.arg_le_pi _
    have hpi : 0 < Real.pi := Real.pi_pos
    have hdeg_le : Complex.arg ⟨p2.1 - p1.1, p2.2 - p1.2⟩ * 180 / Real.pi ≤ 180 := by
      rw [div_le_iff₀ hpi]
      nlinarith
    have hdeg_gt : -180 < Complex.arg ⟨p2.1 - p1.1, p2.2 - p1.2⟩ * 180 / Real.pi := by
      rw [lt_div_iff₀ hpi]
      nlinarith
    by_cases hneg : Complex.arg ⟨p2.1 - p1.1, p2.2 - p1.2⟩ * 180 / Real.pi < 0
    · rw [if_pos hneg]
      constructor <;> linarith
    · rw [if_neg hneg]
      push_neg at hneg
      constructor <;> linarith
  · simp [rad_slice]
  · intro a ha1 ha2
    simp only [rad_slice]
    rw [Int.floor_eq_iff]
    constructor
    · rw [le_div_iff₀ (by norm_num : (0:ℝ) < 22.5)]
      push_cast
      linarith
    · rw [div_lt_iff₀ (by norm_num : (0:ℝ) < 22.5)]
      push_cast
      linarith

/-- C5 witness: the point (1, 0) relative to the origin, and the angle
359.9. -/
theorem c5_witness :
    (((0 : ℝ), (0 : ℝ)) ≠ ((1 : ℝ), (0 : ℝ))
      ∧ 0 ≤ angleFromPoints (0, 0) (1, 0) ∧ angleFromPoints (0, 0) (1, 0) < 360)
    ∧ (337.5 ≤ (359.9 : ℝ) ∧ (359.9 : ℝ) < 360 ∧ rad_slice 359.9 = 15) :=
  ⟨⟨by simp [Prod.ext_iff], c5_angle_range_and_slices.1 (0, 0) (1, 0) (by simp [Prod.ext_iff])⟩,
    by norm_num, by norm_num,
    c5_angle_range_and_slices.2.2 359.9 (by norm_num) (by norm_num)⟩

/-! ## Velocity tracker claims (C6) -/

theorem sum_eq_of_all_eq (l : List ℚ) (c : ℚ) (h : ∀ x ∈ l, x = c) :
    l.sum = l.length * c := by
  induction l with
  | nil => simp
  | cons x xs ih =>
    have hx := h x (by simp)
    have hxs : ∀ y ∈ xs, y = c := fun y hy => h y (by simp [hy])
    rw [List.sum_cons, hx, ih hxs, List.length_cons]
    push_cast
    ring

theorem mean_const (l : List ℚ) (c : ℚ) (h : ∀ x ∈ l, x = c) (hne : l ≠ []) :
    mean l = c := by
  have hlen : 1 ≤ l.length := List.length_pos.mpr hne
  have hcast : (l.length : ℚ) ≠ 0 := Nat.cast_ne_zero.mpr (by omega)
  simp only [mean]
  rw [sum_eq_of_all_eq l c h, max_eq_left hlen]
  exact mul_div_cancel_left₀ c hcast

theorem mean_zeros (l : List ℚ) (h : ∀ x ∈ l, x = 0) : mean l = 0 := by
  simp only [mean]
  rw [sum_eq_of_all_eq l 0 h]
  simp


/-- One zero-displacement tick while the buffer is not yet full. -/
theorem track_zero_step (n : Nat) (hn : n ≤ 38) :
    track_cursor ⟨true, true, List.replicate n 0, List.replicate n 1, true⟩ 0 1 =
      ⟨true, true, List.replicate (n + 1) 0, List.replicate (n + 1) 1, true⟩ := by
  have h40 : (List.replicate (n : Nat) (0 : ℚ)).length < 40 := by
    simp [List.length_replicate]; omega
  simp only [track_cursor, Bool.and_self, if_true]
  rw [if_pos h40, if_pos h40]
  rw [if_neg (by
    rintro ⟨hlen, -⟩
    simp [List.length_append, List.length_replicate] at hlen
    omega)]
  simp [List.replicate_succ']

/-- Iterating zero-displacement ticks fills the buffer with zeros. -/
theorem track_zero_iterate (k : Nat) (hk : k ≤ 39) :
    (fun s => track_cursor s 0 1)^[k] ⟨true, true, [], [], true⟩ =
      ⟨true, true, List.replicate k 0, List.replicate k 1, true⟩ := by
  induction k with
  | zero => rfl
  | succ n ih =>
    rw [Function.iterate_succ_apply', ih (by omega)]
    exact track_zero_step n (by omega)

/-- One constant-100-displacement tick preserves the all-100 buffer and
the gesture flag. -/
theorem track_hundred_step (s : TrackState) (h1 : s.gesture = true)
    (h2 : ∀ x ∈ s.cursorChange, x = (100 : ℚ)) (h3 : s.cursorChange.length ≤ 40) :
    (track_cursor s 100 1).gesture = true ∧
    (∀ x ∈ (track_cursor s 100 1).cursorChange, x = (100 : ℚ)) ∧
    (track_cursor s 100 1).cursorChange.length ≤ 40 := by
  cases hl : s.hasLast with
  | false =>
    refine ⟨?_, ?_, ?_⟩
    · simpa [track_cursor, hl] using h1
    · simpa [track_cursor, hl] using h2
    · simpa [track_cursor, hl] using h3
  | true =>
    have hand : (s.hasLast && s.gesture) = true := by simp [hl, h1]
    by_cases hbuf : s.cursorChange.length < 40
    · have hall : ∀ x ∈ s.cursorChange ++ [(100 : ℚ)], x = (100 : ℚ) := by
        intro x hx
        rcases List.mem_append.mp hx with hx | hx
        · exact h2 x hx
        · simpa using hx
      have hmean : mean (s.cursorChange ++ [(100 : ℚ)]) = 100 :=
        mean_const _ _ hall (by simp)
      have hcond : ¬(40 - 1 < (s.cursorChange ++ [(100 : ℚ)]).length ∧
          mean (s.cursorChange ++ [(100 : ℚ)]) < 1 / 50) := by
        rintro ⟨-, hlt⟩
        rw [hmean] at hlt
        norm_num at hlt
      simp only [track_cursor]
      rw [if_pos hand, if_pos hbuf, if_pos hbuf, if_neg hcond]
      refine ⟨h1, hall, ?_⟩
      show (s.cursorChange ++ [(100 : ℚ)]).length ≤ 40
      simp [List.length_append]
      omega
    · have hall : ∀ x ∈ s.cursorChange.tail ++ [(100 : ℚ)], x = (100 : ℚ) := by
        intro x hx
        rcases List.mem_append.mp hx with hx | hx
        · exact h2 x (List.mem_of_mem_tail hx)
        · simpa using hx
      have hmean : mean (s.cursorChange.tail ++ [(100 : ℚ)]) = 100 :=
        mean_const _ _ hall (by simp)
      have hcond : ¬(40 - 1 < (s.cursorChange.tail ++ [(100 : ℚ)]).length ∧
          mean (s.cursorChange.tail ++ [(100 : ℚ)]) < 1 / 50) := by
        rintro ⟨-, hlt⟩
        rw [hmean] at hlt
        norm_num at hlt
      simp only [track_cursor]
      rw [if_pos hand, if_neg hbuf, if_neg hbuf, if_neg hcond]
      refine ⟨h1, hall, ?_⟩
      show (s.cursorChange.tail ++ [(100 : ℚ)]).length ≤ 40
      simp [List.length_append, List.length_tail]
      omega

/-- C6: the gesture flag drops exactly when the newly updated sample
buffer holds 40 displacement samples and their arithmetic mean is below
0.02; in particular a stored-only first sample followed by 40 zero
displacement samples settles, while any number of constant displacement
100 samples never settles. -/
theorem c6_settle_characterization :
    (∀ d0 t0 : ℚ,
      ((fun s => track_cursor s 0 1)^[40] (track_cursor timer_start d0 t0)).gesture = false)
    ∧ (∀ (n : Nat) (d0 t0 : ℚ),
      ((fun s => track_cursor s 100 1)^[n] (track_cursor timer_start d0 t0)).gesture = true)
    ∧ ∀ (s : TrackState) (d t : ℚ), s.gesture = true → s.cursorChange.length ≤ 40 →
        ((track_cursor s d t).gesture = false ↔
          s.hasLast = true ∧
          (if s.cursorChange.length < 40 then s.cursorChange ++ [d]
            else s.cursorChange.tail ++ [d]).length = 40 ∧
          mean (if s.cursorChange.length < 40 then s.cursorChange ++ [d]
            else s.cursorChange.tail ++ [d]) < 1 / 50) := by
  refine ⟨?_, ?_, ?_⟩
  · intro d0 t0
    have h0 : track_cursor timer_start d0 t0 = ⟨true, true, [], [], true⟩ := rfl
    rw [h0, show (40 : Nat) = 39 + 1 from rfl, Function.iterate_succ_apply',
      track_zero_iterate 39 (by omega)]
    have h40 : (List.replicate (39 : Nat) (0 : ℚ)).length < 40 := by
      simp [List.length_replicate]
    have hzero : ∀ x ∈ List.replicate (39 : Nat) (0 : ℚ) ++ [(0 : ℚ)], x = (0 : ℚ) := by
      intro x hx
      rcases List.mem_append.mp hx with hx | hx
      · exact List.eq_of_mem_replicate hx
      · simpa using hx
    have hcond : 40 - 1 < (List.replicate (39 : Nat) (0 : ℚ) ++ [(0 : ℚ)]).length ∧
        mean (List.replicate (39 : Nat) (0 : ℚ) ++ [(0 : ℚ)]) < 1 / 50 := by
      constructor
      · simp [List.length_append, List.length_replicate]
      · rw [mean_zeros _ hzero]
        norm_num
    simp only [track_cursor, Bool.and_self, if_true]
    rw [if_pos h40, if_pos h40, if_pos hcond]
  · intro n d0 t0
    have h0 : track_cursor timer_start d0 t0 = ⟨true, true, [], [], true⟩ := rfl
    rw [h0]
    have main : ∀ (k : Nat) (s : TrackState), s.gesture = true →
        (∀ x ∈ s.cursorChange, x = (100 : ℚ)) → s.cursorChange.length ≤ 40 →
        ((fun s => track_cursor s 100 1)^[k] s).gesture = true ∧
        (∀ x ∈ ((fun s => track_cursor s 100 1)^[k] s).cursorChange, x = (100 : ℚ)) ∧
        ((fun s => track_cursor s 100 1)^[k] s).cursorChange.length ≤ 40 := by
      intro k
      induction k with
      | zero => intro s h1 h2 h3; exact ⟨h1, h2, h3⟩
      | succ m ih =>
        intro s h1 h2 h3
        rw [Function.iterate_succ_apply]
        obtain ⟨g1, g2, g3⟩ := track_hundred_step s h1 h2 h3
        exact ih _ g1 g2 g3
    exact (main n ⟨true, true, [], [], true⟩ rfl (by simp) (by simp)).1
  · intro s d t h1 h3
    cases hl : s.hasLast with
    | false =>
      simp only [track_cursor]
      rw [if_neg (by rw [hl]; simp)]
      simp [h1, hl]
    | true =>
      have hand : (s.hasLast && s.gesture) = true := by simp [hl, h1]
      simp only [track_cursor]
      rw [if_pos hand]
      by_cases hbuf : s.cursorChange.length < 40
      · rw [if_pos hbuf, if_pos hbuf]
        by_cases hset : 40 - 1 < (s.cursorChange ++ [d]).length ∧
            mean (s.cursorChange ++ [d]) < 1 / 50
        · rw [if_pos hset]
          have hlen40 : (s.cursorChange ++ [d]).length = 40 := by
            have := hset.1
            simp [List.length_append] at this ⊢
            omega
          exact ⟨fun _ => ⟨by trivial, hlen40, hset.2⟩, fun _ => rfl⟩
        · rw [if_neg hset]
          constructor
          · intro hfg
            exact absurd hfg (by simp [h1])
          · rintro ⟨-, hlen, hmean⟩
            exact absurd ⟨by rw [hlen]; omega, hmean⟩ hset
      · rw [if_neg hbuf, if_neg hbuf]
        by_cases hset : 40 - 1 < (s.cursorChange.tail ++ [d]).length ∧
            mean (s.cursorChange.tail ++ [d]) < 1 / 50
        · rw [if_pos hset]
          have hlen40 : (s.cursorChange.tail ++ [d]).length = 40 := by
            simp [List.length_append, List.length_tail]
            omega
          exact ⟨fun _ => ⟨by trivial, hlen40, hset.2⟩, fun _ => rfl⟩
        · rw [if_neg hset]
          constructor
          · intro hfg
            exact absurd hfg (by simp [h1])
          · rintro ⟨-, hlen, hmean⟩
            exact absurd ⟨by rw [hlen]; omega, hmean⟩ hset

/-- C6 witness: a full all-zero buffer one sample short of capacity
settles on the next zero sample, as the characterization predicts. -/
theorem c6_witness :
    ((⟨true, true, List.replicate 39 0, List.replicate 39 1, true⟩ : TrackState).gesture = true
      ∧ (⟨true, true, List.replicate 39 0, List.replicate 39 1, true⟩
          : TrackState).cursorChange.length ≤ 40)
    ∧ ((track_cursor ⟨true, true, List.replicate 39 0, List.replicate 39 1, true⟩ 0 1).gesture
          = false ↔
        (⟨true, true, List.replicate 39 0, List.replicate 39 1, true⟩
          : TrackState).hasLast = true ∧
        (if (List.replicate (39 : Nat) (0 : ℚ)).length < 40 then List.replicate 39 (0 : ℚ) ++ [0]
          else (List.replicate (39 : Nat) (0 : ℚ)).tail ++ [0]).length = 40 ∧
        mean (if (List.replicate (39 : Nat) (0 : ℚ)).length < 40
          then List.replicate 39 (0 : ℚ) ++ [0]
          else (List.replicate (39 : Nat) (0 : ℚ)).tail ++ [0]) < 1 / 50) :=
  ⟨⟨rfl, by simp⟩,
    c6_settle_characterization.2.2 ⟨true, true, List.replicate 39 0, List.replicate 39 1, true⟩
      0 1 rfl (by simp)⟩

end RadialMenu

/-! ## The implemented redistribution equals the amended algorithm (C2) -/

namespace RadialMenu

theorem amendedPassStep_eq (sl used : List Nat) :
    amendedPassStep sl used = passStepCore sl used := rfl

theorem passItems_map_fst (entries : List (Pos × List Nat)) :
    ∀ used, (passItems (entries.map fun e => (⟨some e.1, e.2⟩ : SItem)) used).1 =
      (amendedPassAll entries used).1.map fun e => (⟨some e.1, e.2⟩ : SItem) := by
  induction entries with
  | nil => intro used; rfl
  | cons e rest ih =>
    intro used
    simp only [List.map_cons, passItems, amendedPassAll, amendedPassStep_eq, List.map]
    rw [ih]

theorem passItems_map_snd (entries : List (Pos × List Nat)) :
    ∀ used, (passItems (entries.map fun e => (⟨some e.1, e.2⟩ : SItem)) used).2 =
      (amendedPassAll entries used).2 := by
  induction entries with
  | nil => intro used; rfl
  | cons e rest ih =>
    intro used
    simp only [List.map_cons, passItems, amendedPassAll, amendedPassStep_eq]
    rw [ih]

theorem sliceLoop_map_entry (fuel : Nat) :
    ∀ entries used, sliceLoop fuel (entries.map fun e => (⟨some e.1, e.2⟩ : SItem)) used =
      ((amendedLoop fuel entries used).1.map fun e => (⟨some e.1, e.2⟩ : SItem),
        (amendedLoop fuel entries used).2) := by
  induction fuel with
  | zero => intro entries used; rfl
  | succ n ih =>
    intro entries used
    simp only [sliceLoop, amendedLoop]
    by_cases h : used.length < 16
    · rw [if_pos h, if_pos h, passItems_map_fst, passItems_map_snd, ih]
    · rw [if_neg h, if_neg h]

theorem initSlices_map_mkItem (ps : List Pos) :
    initSlices (ps.map mkItem) =
      some (ps.map fun p => (⟨some p, slicesTable p⟩ : SItem), ps.flatMap slicesTable) := by
  induction ps with
  | nil => rfl
  | cons p rest ih => simp [initSlices, mkItem, ih]

/-- C2 amended: for every ordered list of active radial positions the
implemented redistribution computes exactly the mapping of the amended
algorithm, which claims the neighbours of the first and last elements of
each insertion-ordered slice list. -/
theorem c2_first_last_equivalence (ps : List Pos) (hne : ps ≠ []) :
    update_slice_membership (ps.map mkItem) =
      some ((amendedAssignSlices ps).1.map fun e => (⟨some e.1, e.2⟩ : SItem),
        (amendedAssignSlices ps).2) := by
  unfold update_slice_membership amendedAssignSlices
  rw [initSlices_map_mkItem]
  have hmap : (ps.map fun p => (⟨some p, slicesTable p⟩ : SItem)) =
      (ps.map fun p => (p, slicesTable p)).map fun e => (⟨some e.1, e.2⟩ : SItem) := by
    simp [List.map_map, Function.comp]
  simp only [Option.map_some']
  rw [hmap, sliceLoop_map_entry]

/-- C2 witness for the amended equivalence at the singleton list. -/
theorem c2_witness :
    ([Pos.N] ≠ []) ∧
    update_slice_membership ([Pos.N].map mkItem) =
      some ((amendedAssignSlices [Pos.N]).1.map fun e => (⟨some e.1, e.2⟩ : SItem),
        (amendedAssignSlices [Pos.N]).2) :=
  ⟨by decide, c2_first_last_equivalence [Pos.N] (by decide)⟩

end RadialMenu

/-! ## Arc invariants of the redistribution loop (C1, C4)

Every item slice list stays a contiguous cyclic arc containing its
default pair; its head stays the first default slice, and its last
element is the top of the arc unless the item claimed its below-first
neighbour last, in which case the slice above its top is already used.
These invariants drive both the partition and the termination proofs. -/

namespace RadialMenu

theorem pie_next_eq (x : Nat) (hx : x < 16) : pie_next x = (x + 1) % 16 := by
  unfold pie_next; split <;> omega

theorem pie_last_eq (x : Nat) (hx : x < 16) : pie_last x = (x + 15) % 16 := by
  unfold pie_last; split <;> omega

theorem pie_next_lt (x : Nat) (hx : x < 16) : pie_next x < 16 := by
  unfold pie_next; split <;> omega

theorem inArc_lt {b len y : Nat} (h : inArc b len y) : y < 16 := by
  obtain ⟨i, -, rfl⟩ := h; omega

theorem inArc_base {b len : Nat} (hb : b < 16) (hlen : 0 < len) : inArc b len b :=
  ⟨0, hlen, by omega⟩

theorem inArc_second {b len : Nat} (hb : b < 16) (hlen : 2 ≤ len) :
    inArc b len ((b + 1) % 16) := ⟨1, by omega, by omega⟩

theorem inArc_full {b len y : Nat} (hb : b < 16) (hlen : 16 ≤ len) (hy : y < 16) :
    inArc b len y := ⟨(y + 16 - b) % 16, by omega, by omega⟩

theorem arcTop_lt (b len : Nat) : arcTop b len < 16 := by
  unfold arcTop; omega

theorem inArc_succ_or_top {b len y : Nat} (h : inArc b len y) :
    y = arcTop b len ∨ inArc b len ((y + 1) % 16) := by
  obtain ⟨i, hi, rfl⟩ := h
  by_cases hit : i = len - 1
  · left; unfold arcTop; omega
  · right; exact ⟨i + 1, by omega, by omega⟩

theorem inArc_extend_top {b len y : Nat} (hb : b < 16) (hlen : len < 16) :
    inArc b (len + 1) y ↔ inArc b len y ∨ y = (b + len) % 16 := by
  constructor
  · rintro ⟨i, hi, rfl⟩
    by_cases hit : i = len
    · right; omega
    · left; exact ⟨i, by omega, rfl⟩
  · rintro (⟨i, hi, rfl⟩ | rfl)
    · exact ⟨i, by omega, rfl⟩
    · exact ⟨len, by omega, rfl⟩

theorem arcTop_succ (b len : Nat) : arcTop b (len + 1) = (b + len) % 16 := by
  unfold arcTop; omega

theorem inArc_extend_bot {b len y : Nat} (hb : b < 16) (hlen : len < 16) :
    inArc ((b + 15) % 16) (len + 1) y ↔ y = (b + 15) % 16 ∨ inArc b len y := by
  constructor
  · rintro ⟨i, hi, rfl⟩
    by_cases hi0 : i = 0
    · left; subst hi0; omega
    · right; exact ⟨i - 1, by omega, by omega⟩
  · rintro (rfl | ⟨i, hi, rfl⟩)
    · exact ⟨0, by omega, by omega⟩
    · exact ⟨i + 1, by omega, by omega⟩

theorem arcTop_extend_bot (b len : Nat) (hb : b < 16) (hlen : 1 ≤ len) :
    arcTop ((b + 15) % 16) (len + 1) = arcTop b len := by
  unfold arcTop; omega

theorem pie_next_arcTop (b len : Nat) (hb : b < 16) (hlen : 1 ≤ len) :
    pie_next (arcTop b len) = (b + len) % 16 := by
  rw [pie_next_eq _ (arcTop_lt b len)]
  unfold arcTop
  omega

theorem headD_append_left (sl ext : List Nat) (h : sl ≠ []) :
    (sl ++ ext).headD 0 = sl.headD 0 := by
  cases sl with
  | nil => exact absurd rfl h
  | cons a t => rfl

/-- The four outcomes of one item step of the while loop body. -/
theorem passStepCore_cases (sl used : List Nat) :
    (pie_last (sl.headD 0) ∈ used ∧ pie_next (sl.getLastD 0) ∈ used ∧
      passStepCore sl used = (sl, used))
    ∨ (pie_last (sl.headD 0) ∈ used ∧ pie_next (sl.getLastD 0) ∉ used ∧
      passStepCore sl used =
        (sl ++ [pie_next (sl.getLastD 0)], used ++ [pie_next (sl.getLastD 0)]))
    ∨ (pie_last (sl.headD 0) ∉ used ∧
        pie_next (sl.getLastD 0) ∈ used ++ [pie_last (sl.headD 0)] ∧
      passStepCore sl used =
        (sl ++ [pie_last (sl.headD 0)], used ++ [pie_last (sl.headD 0)]))
    ∨ (pie_last (sl.headD 0) ∉ used ∧
        pie_next (sl.getLastD 0) ∉ used ++ [pie_last (sl.headD 0)] ∧
      passStepCore sl used =
        (sl ++ [pie_last (sl.headD 0), pie_next (sl.getLastD 0)],
          used ++ [pie_last (sl.headD 0), pie_next (sl.getLastD 0)])) := by
  by_cases hn : pie_last (sl.headD 0) ∈ used
  · by_cases hl : pie_next (sl.getLastD 0) ∈ used
    · refine Or.inl ⟨hn, hl, ?_⟩
      simp only [passStepCore]
      rw [if_pos hn,
        if_pos (show pie_next (sl.getLastD 0) ∈ (Prod.mk sl used).2 from hl)]
    · refine Or.inr (Or.inl ⟨hn, hl, ?_⟩)
      simp only [passStepCore]
      rw [if_pos hn,
        if_neg (show ¬ pie_next (sl.getLastD 0) ∈ (Prod.mk sl used).2 from hl)]
  · by_cases hl : pie_next (sl.getLastD 0) ∈ used ++ [pie_last (sl.headD 0)]
    · refine Or.inr (Or.inr (Or.inl ⟨hn, hl, ?_⟩))
      simp only [passStepCore]
      rw [if_neg hn,
        if_pos (show pie_next (sl.getLastD 0) ∈
          (Prod.mk (sl ++ [pie_last (sl.headD 0)]) (used ++ [pie_last (sl.headD 0)])).2
          from hl)]
    · refine Or.inr (Or.inr (Or.inr ⟨hn, hl, ?_⟩))
      simp only [passStepCore]
      rw [if_neg hn,
        if_neg (show ¬ pie_next (sl.getLastD 0) ∈
          (Prod.mk (sl ++ [pie_last (sl.headD 0)]) (used ++ [pie_last (sl.headD 0)])).2
          from hl)]
      show (sl ++ [pie_last (sl.headD 0)] ++ [pie_next (sl.getLastD 0)],
        used ++ [pie_last (sl.headD 0)] ++ [pie_next (sl.getLastD 0)]) = _
      rw [List.append_assoc, List.append_assoc]
      rfl

/-- The invariant of a single item slice list relative to the used list. -/
def ItemInv (d0 : Nat) (sl used : List Nat) : Prop :=
  ∃ b len, b < 16 ∧ 2 ≤ len ∧ len ≤ 16 ∧
    (∀ y, y ∈ sl ↔ inArc b len y) ∧
    sl.headD 0 = d0 ∧
    (b = d0 ∨ b = pie_last d0) ∧
    (sl.getLastD 0 = arcTop b len ∨
      (sl.getLastD 0 = b ∧ b = pie_last d0 ∧ pie_next (arcTop b len) ∈ used))

theorem ItemInv_mono (d0 : Nat) (sl used ext : List Nat) (h : ItemInv d0 sl used) :
    ItemInv d0 sl (used ++ ext) := by
  obtain ⟨b, len, hb, h2, h16, hmem, hhead, hanchor, hlast⟩ := h
  refine ⟨b, len, hb, h2, h16, hmem, hhead, hanchor, ?_⟩
  rcases hlast with h | ⟨ha, hc, hd⟩
  · exact Or.inl h
  · exact Or.inr ⟨ha, hc, List.mem_append_left _ hd⟩

end RadialMenu

namespace RadialMenu

set_option maxHeartbeats 1000000 in
/-- One item step preserves the item invariant; the appended slices
extend the item list and the used list identically. -/
theorem passStepCore_inv (d0 : Nat) (sl used : List Nat) (hd0 : d0 < 16)
    (hsub : ∀ y ∈ sl, y ∈ used) (hinv : ItemInv d0 sl used) :
    ∃ ext, passStepCore sl used = (sl ++ ext, used ++ ext) ∧
      ItemInv d0 (sl ++ ext) (used ++ ext) := by
  obtain ⟨b, len, hb, hlen2, hlen16, hmem, hhead, hanchor, hlast⟩ := hinv
  have hslne : sl ≠ [] := by
    intro h
    have hbm := (hmem b).mpr (inArc_base hb (by omega))
    rw [h] at hbm
    exact absurd hbm (List.not_mem_nil b)
  have hN : pie_last (sl.headD 0) = pie_last d0 := by rw [hhead]
  rcases passStepCore_cases sl used with
    ⟨hn, hl, heq⟩ | ⟨hn, hl, heq⟩ | ⟨hn, hl, heq⟩ | ⟨hn, hl, heq⟩
  · -- nothing appended
    refine ⟨[], by simpa using heq, ?_⟩
    simp only [List.append_nil]
    exact ⟨b, len, hb, hlen2, hlen16, hmem, hhead, hanchor, hlast⟩
  · -- only the top neighbour appended
    have hlive : sl.getLastD 0 = arcTop b len := by
      rcases hlast with h | ⟨hlb, hbd, -⟩
      · exact h
      · exfalso
        apply hl
        apply hsub
        apply (hmem _).mpr
        rw [hlb, pie_next_eq b hb]
        exact inArc_second hb hlen2
    have hlen15 : len < 16 := by
      by_contra h
      push_neg at h
      apply hl
      apply hsub
      apply (hmem _).mpr
      exact inArc_full hb h (by rw [hlive]; exact pie_next_lt _ (arcTop_lt b len))
    have hlval : pie_next (sl.getLastD 0) = (b + len) % 16 := by
      rw [hlive]
      exact pie_next_arcTop b len hb (by omega)
    refine ⟨[pie_next (sl.getLastD 0)], heq, ?_⟩
    refine ⟨b, len + 1, hb, by omega, by omega, ?_, ?_, hanchor, ?_⟩
    · intro y
      rw [List.mem_append, List.mem_singleton, hmem, hlval,
        inArc_extend_top hb hlen15]
    · rw [headD_append_left sl _ hslne]; exact hhead
    · left
      rw [List.getLastD_concat, arcTop_succ]
      exact hlval
  · -- only the bottom neighbour appended; item goes dead
    have hnsl : pie_last (sl.headD 0) ∉ sl := fun h => hn (hsub _ h)
    have hbd0 : b = d0 := by
      rcases hanchor with h | h
      · exact h
      · exfalso
        apply hnsl
        apply (hmem _).mpr
        rw [hN, ← h]
        exact inArc_base hb (by omega)
    have hnval : pie_last (sl.headD 0) = (b + 15) % 16 := by
      rw [hN, pie_last_eq d0 hd0, hbd0]
    have hlive : sl.getLastD 0 = arcTop b len := by
      rcases hlast with h | ⟨-, hbdead, -⟩
      · exact h
      · exfalso
        rw [hbd0, pie_last_eq d0 hd0] at hbdead
        omega
    have hlen15 : len < 16 := by
      by_contra h
      push_neg at h
      apply hnsl
      apply (hmem _).mpr
      exact inArc_full hb h (by rw [hnval]; omega)
    refine ⟨[pie_last (sl.headD 0)], heq, ?_⟩
    refine ⟨(b + 15) % 16, len + 1, by omega, by omega, by omega, ?_, ?_, ?_, ?_⟩
    · intro y
      rw [List.mem_append, List.mem_singleton, hmem, hnval,
        inArc_extend_bot hb hlen15]
      tauto
    · rw [headD_append_left sl _ hslne]; exact hhead
    · right; rw [hbd0, pie_last_eq d0 hd0]
    · right
      refine ⟨?_, ?_, ?_⟩
      · rw [List.getLastD_concat]; exact hnval
      · rw [hbd0, pie_last_eq d0 hd0]
      · rw [arcTop_extend_bot b len hb (by omega), ← hlive]
        exact hl
  · -- both neighbours appended
    have hnsl : pie_last (sl.headD 0) ∉ sl := fun h => hn (hsub _ h)
    have hbd0 : b = d0 := by
      rcases hanchor with h | h
      · exact h
      · exfalso
        apply hnsl
        apply (hmem _).mpr
        rw [hN, ← h]
        exact inArc_base hb (by omega)
    have hnval : pie_last (sl.headD 0) = (b + 15) % 16 := by
      rw [hN, pie_last_eq d0 hd0, hbd0]
    have hlused : pie_next (sl.getLastD 0) ∉ used :=
      fun h => hl (List.mem_append_left _ h)
    have hlive : sl.getLastD 0 = arcTop b len := by
      rcases hlast with h | ⟨hlb, -, -⟩
      · exact h
      · exfalso
        apply hlused
        apply hsub
        apply (hmem _).mpr
        rw [hlb, pie_next_eq b hb]
        exact inArc_second hb hlen2
    have hlen15 : len < 16 := by
      by_contra h
      push_neg at h
      apply hlused
      apply hsub
      apply (hmem _).mpr
      exact inArc_full hb h (by rw [hlive]; exact pie_next_lt _ (arcTop_lt b len))
    have hlval : pie_next (sl.getLastD 0) = (b + len) % 16 := by
      rw [hlive]
      exact pie_next_arcTop b len hb (by omega)
    have hl16 : pie_next (sl.getLastD 0) < 16 := by rw [hlval]; omega
    have hlen15b : len + 1 < 16 := by
      by_contra h
      push_neg at h
      apply hl
      have hfull : inArc ((b + 15) % 16) (len + 1) (pie_next (sl.getLastD 0)) :=
        inArc_full (by omega) h hl16
      rw [inArc_extend_bot hb hlen15] at hfull
      rcases hfull with h1 | h1
      · exact List.mem_append_right _ (by rw [List.mem_singleton, hnval]; exact h1)
      · exact List.mem_append_left _ (hsub _ ((hmem _).mpr h1))
    refine ⟨[pie_last (sl.headD 0), pie_next (sl.getLastD 0)], heq, ?_⟩
    refine ⟨(b + 15) % 16, len + 2, by omega, by omega, by omega, ?_, ?_, ?_, ?_⟩
    · intro y
      have harc2 : inArc ((b + 15) % 16) (len + 1 + 1) y ↔
          inArc ((b + 15) % 16) (len + 1) y ∨ y = ((b + 15) % 16 + (len + 1)) % 16 :=
        inArc_extend_top (by omega) (by omega)
      have hb1top : ((b + 15) % 16 + (len + 1)) % 16 = (b + len) % 16 := by omega
      rw [show len + 2 = len + 1 + 1 from rfl, harc2, inArc_extend_bot hb hlen15, hb1top]
      simp only [List.mem_append, List.mem_cons, List.mem_singleton, hmem, hnval, hlval,
        List.not_mem_nil, or_false]
      tauto
    · rw [show sl ++ [pie_last (sl.headD 0), pie_next (sl.getLastD 0)] =
        (sl ++ [pie_last (sl.headD 0)]) ++ [pie_next (sl.getLastD 0)] by
          rw [List.append_assoc]; rfl]
      rw [headD_append_left _ _ (by simp [hslne]), headD_append_left sl _ hslne]
      exact hhead
    · right; rw [hbd0, pie_last_eq d0 hd0]
    · left
      have hgl : (sl ++ [pie_last (sl.headD 0), pie_next (sl.getLastD 0)]).getLastD 0
          = pie_next (sl.getLastD 0) := by
        rw [show sl ++ [pie_last (sl.headD 0), pie_next (sl.getLastD 0)] =
          (sl ++ [pie_last (sl.headD 0)]) ++ [pie_next (sl.getLastD 0)] by
            rw [List.append_assoc]; rfl]
        exact List.getLastD_concat _ _ _
      rw [hgl, show len + 2 = len + 1 + 1 from rfl, arcTop_succ, hlval]
      omega

end RadialMenu

namespace RadialMenu

theorem nodup_append_singleton {l : List Nat} {x : Nat} (h : l.Nodup) (hx : x ∉ l) :
    (l ++ [x]).Nodup := by
  rw [List.nodup_append]
  exact ⟨h, List.nodup_singleton x, fun a ha hax =>
    hx ((List.mem_singleton.mp hax) ▸ ha)⟩

theorem passStepCore_ext (sl used : List Nat) :
    ∃ ext, passStepCore sl used = (sl ++ ext, used ++ ext) := by
  rcases passStepCore_cases sl used with ⟨-, -, h⟩ | ⟨-, -, h⟩ | ⟨-, -, h⟩ | ⟨-, -, h⟩
  · exact ⟨[], by simpa using h⟩
  · exact ⟨_, h⟩
  · exact ⟨_, h⟩
  · exact ⟨_, h⟩

theorem passStepCore_nodup (sl used : List Nat) (h : used.Nodup) :
    (passStepCore sl used).2.Nodup := by
  rcases passStepCore_cases sl used with
    ⟨-, -, heq⟩ | ⟨-, hl, heq⟩ | ⟨hn, -, heq⟩ | ⟨hn, hl, heq⟩
  · rw [heq]; exact h
  · rw [heq]; exact nodup_append_singleton h hl
  · rw [heq]; exact nodup_append_singleton h hn
  · rw [heq]
    show (used ++ [pie_last (sl.headD 0), pie_next (sl.getLastD 0)]).Nodup
    have hsplit : used ++ [pie_last (sl.headD 0), pie_next (sl.getLastD 0)] =
        (used ++ [pie_last (sl.headD 0)]) ++ [pie_next (sl.getLastD 0)] := by
      rw [List.append_assoc]; rfl
    rw [hsplit]
    exact nodup_append_singleton (nodup_append_singleton h hn) hl

/-- The default slice of a position (first entry of the slice table). -/
def dfst (p : Pos) : Nat := (slicesTable p).headD 0

theorem dfst_lt (p : Pos) : dfst p < 16 := by cases p <;> decide

theorem slicesTable_eq (p : Pos) : slicesTable p = [dfst p, (dfst p + 1) % 16] := by
  cases p <;> rfl

theorem ItemInv_init (p : Pos) (used : List Nat) :
    ItemInv (dfst p) (slicesTable p) used := by
  have hd := dfst_lt p
  refine ⟨dfst p, 2, hd, le_refl 2, by omega, ?_, ?_, Or.inl rfl, Or.inl ?_⟩
  · intro y
    rw [slicesTable_eq p]
    simp only [List.mem_cons, List.mem_singleton, List.not_mem_nil, or_false]
    constructor
    · rintro (rfl | rfl)
      · exact inArc_base hd (by omega)
      · exact inArc_second hd (le_refl 2)
    · rintro ⟨i, hi, rfl⟩
      have : i = 0 ∨ i = 1 := by omega
      rcases this with rfl | rfl
      · left; omega
      · right; rfl
  · rw [slicesTable_eq p]; rfl
  · rw [slicesTable_eq p]
    show (dfst p + 1) % 16 = arcTop (dfst p) 2
    unfold arcTop
    omega

/-- Global invariant of the while loop: every item is a radial item
satisfying the per-item arc invariant, and the used list is a
permutation of the concatenation of all item slice lists. -/
def Inv (items : List SItem) (used : List Nat) : Prop :=
  (∀ it ∈ items, ∃ p, it.position = some p ∧ ItemInv (dfst p) it.slices used)
  ∧ ((items.flatMap SItem.slices).Perm used)

theorem perm_swap_middle (A B C : List Nat) : (A ++ B ++ C).Perm (A ++ C ++ B) := by
  rw [List.append_assoc, List.append_assoc]
  exact List.Perm.append_left A List.perm_append_comm

theorem passItems_spec : ∀ (its : List SItem) (used ctx : List Nat),
    (∀ it ∈ its, ∃ p, it.position = some p ∧ ItemInv (dfst p) it.slices used) →
    ((ctx ++ its.flatMap SItem.slices).Perm used) →
    (∀ it ∈ (passItems its used).1, ∃ p, it.position = some p ∧
      ItemInv (dfst p) it.slices (passItems its used).2) ∧
    ((ctx ++ (passItems its used).1.flatMap SItem.slices).Perm (passItems its used).2) ∧
    (∃ ext, (passItems its used).2 = used ++ ext) ∧
    (used.Nodup → (passItems its used).2.Nodup) ∧
    (passItems its used).1.length = its.length := by
  intro its
  induction its with
  | nil =>
    intro used ctx hinv hperm
    refine ⟨by simp [passItems], by simpa [passItems] using hperm,
      ⟨[], by simp [passItems]⟩, fun h => by simpa [passItems] using h,
      by simp [passItems]⟩
  | cons it rest ih =>
    intro used ctx hinv hperm
    obtain ⟨p, hp, hitem⟩ := hinv it (by simp)
    have hsub : ∀ y ∈ it.slices, y ∈ used := by
      intro y hy
      refine hperm.mem_iff.mp (List.mem_append_right _ ?_)
      rw [List.flatMap_cons]
      exact List.mem_append_left _ hy
    obtain ⟨ext1, heq1, hitem1⟩ :=
      passStepCore_inv (dfst p) it.slices used (dfst_lt p) hsub hitem
    have hps1 : (passStepCore it.slices used).1 = it.slices ++ ext1 := by rw [heq1]
    have hps2 : (passStepCore it.slices used).2 = used ++ ext1 := by rw [heq1]
    have hpass : passItems (it :: rest) used =
        (⟨it.position, it.slices ++ ext1⟩ :: (passItems rest (used ++ ext1)).1,
          (passItems rest (used ++ ext1)).2) := by
      simp only [passItems]
      rw [hps1, hps2]
    have hrest_inv : ∀ x ∈ rest, ∃ q, x.position = some q ∧
        ItemInv (dfst q) x.slices (used ++ ext1) := by
      intro x hx
      obtain ⟨q, hq, hxi⟩ := hinv x (by simp [hx])
      exact ⟨q, hq, ItemInv_mono _ _ _ _ hxi⟩
    have hperm1 : ((ctx ++ (it.slices ++ ext1)) ++ rest.flatMap SItem.slices).Perm
        (used ++ ext1) := by
      have e1 : (ctx ++ (it.slices ++ ext1)) ++ rest.flatMap SItem.slices =
          (ctx ++ it.slices) ++ ext1 ++ rest.flatMap SItem.slices := by
        simp [List.append_assoc]
      have p1 : ((ctx ++ it.slices) ++ ext1 ++ rest.flatMap SItem.slices).Perm
          ((ctx ++ it.slices) ++ rest.flatMap SItem.slices ++ ext1) :=
        perm_swap_middle _ _ _
      have e2 : (ctx ++ it.slices) ++ rest.flatMap SItem.slices =
          ctx ++ (it :: rest).flatMap SItem.slices := by
        rw [List.flatMap_cons, List.append_assoc]
      have p2 : ((ctx ++ (it :: rest).flatMap SItem.slices) ++ ext1).Perm (used ++ ext1) :=
        hperm.append_right ext1
      rw [e1]
      exact p1.trans (by rw [e2]; exact p2)
    obtain ⟨hrest1, hrest2, ⟨ext2, hext2⟩, hrestnd, hrestlen⟩ :=
      ih (used ++ ext1) (ctx ++ (it.slices ++ ext1)) hrest_inv hperm1
    rw [hpass]
    refine ⟨?_, ?_, ?_, ?_, ?_⟩
    · intro x hx
      have hx' : x = (⟨it.position, it.slices ++ ext1⟩ : SItem) ∨
          x ∈ (passItems rest (used ++ ext1)).1 := by simpa using hx
      rcases hx' with rfl | hx'
      · refine ⟨p, hp, ?_⟩
        show ItemInv (dfst p) (it.slices ++ ext1) (passItems rest (used ++ ext1)).2
        rw [hext2]
        exact ItemInv_mono _ _ _ _ hitem1
      · exact hrest1 x hx'
    · show ((ctx ++ ((it.slices ++ ext1) ++ (passItems rest (used ++ ext1)).1.flatMap
        SItem.slices)).Perm (passItems rest (used ++ ext1)).2)
      have e3 : ctx ++ ((it.slices ++ ext1) ++ (passItems rest (used ++ ext1)).1.flatMap
          SItem.slices) = (ctx ++ (it.slices ++ ext1)) ++
          (passItems rest (used ++ ext1)).1.flatMap SItem.slices := by
        simp [List.append_assoc]
      rw [e3]
      exact hrest2
    · exact ⟨ext1 ++ ext2, by rw [hext2, List.append_assoc]⟩
    · intro hnd
      apply hrestnd
      have hnd1 := passStepCore_nodup it.slices used hnd
      rwa [hps2] at hnd1
    · simpa using hrestlen

end RadialMenu

namespace RadialMenu

theorem closure16 (used : List Nat) (hlt : ∀ w ∈ used, w < 16) (hne : used ≠ [])
    (hcl : ∀ w ∈ used, (w + 1) % 16 ∈ used) : ∀ y, y < 16 → y ∈ used := by
  obtain ⟨x, hx⟩ := List.exists_mem_of_ne_nil used hne
  have hx16 := hlt x hx
  have key : ∀ k, (x + k) % 16 ∈ used := by
    intro k
    induction k with
    | zero =>
      have h0 : (x + 0) % 16 = x := by omega
      rw [h0]; exact hx
    | succ m ihm =>
      have heq : ((x + m) % 16 + 1) % 16 = (x + (m + 1)) % 16 := by omega
      have hstep := hcl _ ihm
      rwa [heq] at hstep
  intro y hy
  have hrep : (x + (y + 16 - x)) % 16 = y := by omega
  rw [← hrep]
  exact key _

theorem exists_gap (used : List Nat) (hlt : ∀ w ∈ used, w < 16) (hne : used ≠ [])
    (hmiss : ∃ u, u < 16 ∧ u ∉ used) : ∃ w ∈ used, (w + 1) % 16 ∉ used := by
  by_contra h
  push_neg at h
  obtain ⟨u, hu16, hu⟩ := hmiss
  exact hu (closure16 used hlt hne h u hu16)

theorem passItems_snd_ext : ∀ (its : List SItem) (used : List Nat),
    ∃ ext, (passItems its used).2 = used ++ ext := by
  intro its
  induction its with
  | nil => intro used; exact ⟨[], by simp [passItems]⟩
  | cons it rest ih =>
    intro used
    obtain ⟨e1, he1⟩ := passStepCore_ext it.slices used
    obtain ⟨e2, he2⟩ := ih (passStepCore it.slices used).2
    refine ⟨e1 ++ e2, ?_⟩
    show (passItems rest (passStepCore it.slices used).2).2 = used ++ (e1 ++ e2)
    rw [he2, show (passStepCore it.slices used).2 = used ++ e1 by rw [he1],
      List.append_assoc]

theorem passItems_grows : ∀ (its : List SItem) (used : List Nat),
    (∃ it ∈ its, pie_next (it.slices.getLastD 0) ∉ used) →
    used.length < (passItems its used).2.length := by
  intro its
  induction its with
  | nil =>
    rintro used ⟨it, h, -⟩
    exact absurd h (List.not_mem_nil it)
  | cons it rest ih =>
    rintro used ⟨w, hw, hwl⟩
    obtain ⟨e1, he1⟩ := passStepCore_ext it.slices used
    obtain ⟨e2, he2⟩ := passItems_snd_ext rest (passStepCore it.slices used).2
    have hout : (passItems (it :: rest) used).2 = (passStepCore it.slices used).2 ++ e2 := by
      show (passItems rest (passStepCore it.slices used).2).2 = _
      exact he2
    rcases List.mem_cons.mp hw with rfl | hw'
    · have hgrow : used.length < (passStepCore w.slices used).2.length := by
        rcases passStepCore_cases w.slices used with
          ⟨-, hl, heq⟩ | ⟨-, -, heq⟩ | ⟨-, -, heq⟩ | ⟨-, -, heq⟩
        · exact absurd hl hwl
        · rw [heq]; simp
        · rw [heq]; simp
        · rw [heq]; simp
      rw [hout, List.length_append]
      omega
    · by_cases he1nil : e1 = []
      · have hXeq : (passStepCore it.slices used).2 = used := by
          rw [he1, he1nil]
          simp
        rw [hXeq] at he2
        rw [hout, hXeq, ← he2]
        exact ih used ⟨w, hw', hwl⟩
      · have hpos : 0 < e1.length := List.length_pos.mpr he1nil
        rw [hout, he1]
        simp [List.length_append]
        omega

theorem pass_progress (items : List SItem) (used : List Nat)
    (hinv : Inv items used) (hne : items ≠ [])
    (hmiss : ∃ u, u < 16 ∧ u ∉ used) :
    used.length < (passItems items used).2.length := by
  obtain ⟨hitems, hperm⟩ := hinv
  have hlt : ∀ w ∈ used, w < 16 := by
    intro w hw
    obtain ⟨it, hit, hwit⟩ := List.mem_flatMap.mp (hperm.mem_iff.mpr hw)
    obtain ⟨p, -, b, len, hb, h2, h16, hmem, -, -, -⟩ := hitems it hit
    exact inArc_lt ((hmem w).mp hwit)
  have hune : used ≠ [] := by
    obtain ⟨it0, hit0⟩ := List.exists_mem_of_ne_nil items hne
    obtain ⟨p, -, b, len, hb, h2, h16, hmem, -, -, -⟩ := hitems it0 hit0
    have hbu : b ∈ used := by
      apply hperm.mem_iff.mp
      exact List.mem_flatMap.mpr ⟨it0, hit0, (hmem b).mpr (inArc_base hb (by omega))⟩
    intro h
    rw [h] at hbu
    exact List.not_mem_nil b hbu
  obtain ⟨w, hwu, hwgap⟩ := exists_gap used hlt hune hmiss
  have hw16 := hlt w hwu
  obtain ⟨it, hit, hwit⟩ := List.mem_flatMap.mp (hperm.mem_iff.mpr hwu)
  obtain ⟨p, hp, b, len, hb, h2, h16, hmem, hhead, hanchor, hlast⟩ := hitems it hit
  have hwarc : inArc b len w := (hmem w).mp hwit
  have htop : w = arcTop b len := by
    rcases inArc_succ_or_top hwarc with h | h
    · exact h
    · exact absurd (hperm.mem_iff.mp (List.mem_flatMap.mpr ⟨it, hit, (hmem _).mpr h⟩)) hwgap
  apply passItems_grows items used
  refine ⟨it, hit, ?_⟩
  rcases hlast with hlive | ⟨-, -, hdead⟩
  · rw [hlive, ← htop, pie_next_eq w hw16]
    exact hwgap
  · exfalso
    apply hwgap
    rw [← htop, pie_next_eq w hw16] at hdead
    exact hdead

theorem sliceLoop_spec : ∀ (fuel : Nat) (items : List SItem) (used : List Nat),
    Inv items used → items ≠ [] →
    Inv (sliceLoop fuel items used).1 (sliceLoop fuel items used).2 ∧
    min 16 (used.length + fuel) ≤ (sliceLoop fuel items used).2.length ∧
    (used.Nodup → (sliceLoop fuel items used).2.Nodup) := by
  intro fuel
  induction fuel with
  | zero =>
    intro items used hinv hne
    refine ⟨hinv, ?_, fun h => h⟩
    show min 16 (used.length + 0) ≤ used.length
    omega
  | succ n ih =>
    intro items used hinv hne
    by_cases hlen : used.length < 16
    · obtain ⟨hinv1', hperm1, ⟨ext, hext⟩, hnd1, hlen1⟩ :=
        passItems_spec items used [] hinv.1 (by simpa using hinv.2)
      have hinv1 : Inv (passItems items used).1 (passItems items used).2 :=
        ⟨hinv1', by simpa using hperm1⟩
      have hne1 : (passItems items used).1 ≠ [] := by
        intro h
        apply hne
        rw [h] at hlen1
        simp at hlen1
        exact List.length_eq_zero.mp hlen1.symm
      have hmiss : ∃ u, u < 16 ∧ u ∉ used := by
        by_contra h
        push_neg at h
        have hsub : Finset.range 16 ⊆ used.toFinset := by
          intro u hu
          rw [List.mem_toFinset]
          exact h u (Finset.mem_range.mp hu)
        have hcard : (16 : Nat) ≤ used.toFinset.card := by
          simpa using Finset.card_le_card hsub
        have hle : used.toFinset.card ≤ used.length := used.toFinset_card_le
        omega
      have hgrow := pass_progress items used hinv hne hmiss
      have hloop : sliceLoop (n + 1) items used =
          sliceLoop n (passItems items used).1 (passItems items used).2 := by
        simp only [sliceLoop]
        rw [if_pos hlen]
      rw [hloop]
      obtain ⟨g1, g2, g3⟩ := ih (passItems items used).1 (passItems items used).2 hinv1 hne1
      exact ⟨g1, by omega, fun hnd => g3 (hnd1 hnd)⟩
    · have hloop : sliceLoop (n + 1) items used = (items, used) := by
        simp only [sliceLoop]
        rw [if_neg hlen]
      rw [hloop]
      refine ⟨hinv, ?_, fun h => h⟩
      show min 16 (used.length + (n + 1)) ≤ used.length
      omega

end RadialMenu

namespace RadialMenu

theorem Inv_init (ps : List Pos) :
    Inv (ps.map fun p => (⟨some p, slicesTable p⟩ : SItem)) (ps.flatMap slicesTable) := by
  constructor
  · intro it hit
    obtain ⟨p, hp, rfl⟩ := List.mem_map.mp hit
    exact ⟨p, rfl, ItemInv_init p _⟩
  · have heq : (ps.map fun p => (⟨some p, slicesTable p⟩ : SItem)).flatMap SItem.slices
        = ps.flatMap slicesTable := by
      induction ps with
      | nil => rfl
      | cons p rest ih => simp [List.flatMap_cons, ih]
    rw [heq]

theorem slicesTable_disjoint (p q : Pos) (h : p ≠ q) :
    ∀ a ∈ slicesTable p, a ∉ slicesTable q := by
  cases p <;> cases q <;> first | exact absurd rfl h | decide

theorem initial_used_nodup (ps : List Pos) (hnd : ps.Nodup) :
    (ps.flatMap slicesTable).Nodup := by
  induction ps with
  | nil => simp
  | cons p rest ih =>
    obtain ⟨hp, hrest⟩ := List.nodup_cons.mp hnd
    rw [List.flatMap_cons, List.nodup_append]
    refine ⟨by cases p <;> decide, ih hrest, ?_⟩
    intro a ha haf
    obtain ⟨q, hq, haq⟩ := List.mem_flatMap.mp haf
    have hpq : p ≠ q := fun hpq => hp (hpq ▸ hq)
    exact slicesTable_disjoint p q hpq a ha haq

theorem Inv_used_lt (items : List SItem) (used : List Nat) (h : Inv items used) :
    ∀ w ∈ used, w < 16 := by
  intro w hw
  obtain ⟨it, hit, hwit⟩ := List.mem_flatMap.mp (h.2.mem_iff.mpr hw)
  obtain ⟨p, -, b, len, hb, h2, h16, hmem, -, -, -⟩ := h.1 it hit
  exact inArc_lt ((hmem w).mp hwit)

theorem update_slice_membership_radial (ps : List Pos) :
    update_slice_membership (ps.map mkItem) =
      some (sliceLoop 16 (ps.map fun p => (⟨some p, slicesTable p⟩ : SItem))
        (ps.flatMap slicesTable)) := by
  unfold update_slice_membership
  rw [initSlices_map_mkItem]
  rfl

theorem update_distinct_partition (ps : List Pos) (hne : ps ≠ []) (hnd : ps.Nodup) :
    ∃ its used, update_slice_membership (ps.map mkItem) = some (its, used) ∧
      (its.flatMap SItem.slices).Nodup ∧
      (its.flatMap SItem.slices).toFinset = Finset.range 16 ∧
      used.toFinset = Finset.range 16 ∧ 16 ≤ used.length := by
  have hne' : (ps.map fun p => (⟨some p, slicesTable p⟩ : SItem)) ≠ [] := by
    intro h
    exact hne (List.map_eq_nil_iff.mp h)
  obtain ⟨hinvF, hlenF, hndF⟩ := sliceLoop_spec 16
    (ps.map fun p => ⟨some p, slicesTable p⟩) (ps.flatMap slicesTable) (Inv_init ps) hne'
  set r := sliceLoop 16 (ps.map fun p => (⟨some p, slicesTable p⟩ : SItem))
    (ps.flatMap slicesTable) with hr
  have hu_nd : r.2.Nodup := hndF (initial_used_nodup ps hnd)
  have h16le : 16 ≤ r.2.length := by omega
  have hsub : r.2.toFinset ⊆ Finset.range 16 := by
    intro u hu
    rw [Finset.mem_range]
    exact (Inv_used_lt _ _ hinvF) u (List.mem_toFinset.mp hu)
  have hcard : r.2.toFinset.card = r.2.length := List.toFinset_card_of_nodup hu_nd
  have hused_fin : r.2.toFinset = Finset.range 16 := by
    apply Finset.eq_of_subset_of_card_le hsub
    rw [Finset.card_range, hcard]
    omega
  refine ⟨r.1, r.2, ?_, ?_, ?_, hused_fin, h16le⟩
  · rw [update_slice_membership_radial]
  · exact (hinvF.2.nodup_iff).mpr hu_nd
  · have hts : (r.1.flatMap SItem.slices).toFinset = r.2.toFinset := by
      ext a
      simp only [List.mem_toFinset]
      exact hinvF.2.mem_iff
    rw [hts]
    exact hused_fin

theorem passItems_positions : ∀ (its : List SItem) (used : List Nat),
    (passItems its used).1.map SItem.position = its.map SItem.position := by
  intro its
  induction its with
  | nil => intro used; rfl
  | cons it rest ih =>
    intro used
    simp [passItems, ih]

theorem sliceLoop_positions : ∀ (fuel : Nat) (its : List SItem) (used : List Nat),
    (sliceLoop fuel its used).1.map SItem.position = its.map SItem.position := by
  intro fuel
  induction fuel with
  | zero => intro its used; rfl
  | succ n ih =>
    intro its used
    by_cases h : used.length < 16
    · have hl : sliceLoop (n + 1) its used =
          sliceLoop n (passItems its used).1 (passItems its used).2 := by
        simp only [sliceLoop]
        rw [if_pos h]
      rw [hl, ih, passItems_positions]
    · have hl : sliceLoop (n + 1) its used = (its, used) := by
        simp only [sliceLoop]
        rw [if_neg h]
      rw [hl]

theorem initSlices_positions (xs : List SItem) (r : List SItem × List Nat)
    (h : initSlices xs = some r) : r.1.map SItem.position = xs.map SItem.position := by
  induction xs generalizing r with
  | nil =>
    simp only [initSlices, Option.some.injEq] at h
    rw [← h]
  | cons x xs' ih =>
    cases hx : x.position with
    | none => rw [initSlices, hx] at h; cases h
    | some p =>
      rw [initSlices, hx] at h
      cases hr : initSlices xs' with
      | none => rw [hr] at h; cases h
      | some r' =>
        rw [hr] at h
        simp only [Option.map_some', Option.some.injEq] at h
        subst h
        simp only [List.map_cons]
        rw [ih r' hr, hx]

theorem update_positions_of_update (xs : List SItem) (r : List SItem × List Nat)
    (h : update_slice_membership xs = some r) :
    r.1.map SItem.position = xs.map SItem.position := by
  unfold update_slice_membership at h
  cases hi : initSlices xs with
  | none => rw [hi] at h; cases h
  | some r0 =>
    rw [hi] at h
    simp only [Option.map_some', Option.some.injEq] at h
    subst h
    rw [sliceLoop_positions, initSlices_positions xs r0 hi]

theorem update_positions_congr (xs ys : List SItem)
    (h : xs.map SItem.position = ys.map SItem.position) :
    update_slice_membership xs = update_slice_membership ys := by
  unfold update_slice_membership
  suffices hs : initSlices xs = initSlices ys by rw [hs]
  induction xs generalizing ys with
  | nil =>
    cases ys with
    | nil => rfl
    | cons y ys' => simp at h
  | cons x xs' ih =>
    cases ys with
    | nil => simp at h
    | cons y ys' =>
      simp only [List.map_cons, List.cons.injEq] at h
      obtain ⟨h1, h2⟩ := h
      simp only [initSlices, h1]
      rw [ih ys' h2]

theorem update_radial_isSome (xs : List SItem) (h : ∀ it ∈ xs, it.position.isSome = true) :
    ∃ r, update_slice_membership xs = some r :=
  Option.isSome_iff_exists.mp ((update_isSome_iff xs).mpr h)

theorem foldlM_add_radial : ∀ (qs : List Pos) (cur : List SItem),
    (∀ it ∈ cur, it.position.isSome = true) → qs ≠ [] →
    (qs.map mkItem).foldlM add_item cur =
      (update_slice_membership (cur ++ qs.map mkItem)).map (·.1) := by
  intro qs
  induction qs with
  | nil =>
    intro cur _ h
    exact absurd rfl h
  | cons q rest ih =>
    intro cur hcur _
    have hstep : add_item cur (mkItem q) =
        (update_slice_membership (cur ++ [mkItem q])).map (·.1) := rfl
    have hcur1 : ∀ it ∈ cur ++ [mkItem q], it.position.isSome = true := by
      intro it hit
      rcases List.mem_append.mp hit with h | h
      · exact hcur it h
      · rw [List.mem_singleton.mp h]; rfl
    obtain ⟨r1, hr1⟩ := update_radial_isSome _ hcur1
    cases rest with
    | nil => simp [List.foldlM, hstep, hr1]
    | cons q2 rest2 =>
      have hpos1 : r1.1.map SItem.position = (cur ++ [mkItem q]).map SItem.position :=
        update_positions_of_update _ _ hr1
      have hcur2 : ∀ it ∈ r1.1, it.position.isSome = true := by
        intro it hit
        have hmemp : it.position ∈ (cur ++ [mkItem q]).map SItem.position := by
          rw [← hpos1]
          exact List.mem_map_of_mem _ hit
        obtain ⟨it2, hit2, heq2⟩ := List.mem_map.mp hmemp
        rw [← heq2]
        exact hcur1 it2 hit2
      have hne2 : (q2 :: rest2 : List Pos) ≠ [] := by simp
      calc ((q :: q2 :: rest2).map mkItem).foldlM add_item cur
          = ((q2 :: rest2).map mkItem).foldlM add_item r1.1 := by
            simp [List.foldlM_cons, hstep, hr1]
        _ = (update_slice_membership (r1.1 ++ (q2 :: rest2).map mkItem)).map (·.1) :=
            ih r1.1 hcur2 hne2
        _ = (update_slice_membership
              ((cur ++ [mkItem q]) ++ (q2 :: rest2).map mkItem)).map (·.1) := by
            congr 1
            apply update_positions_congr
            rw [List.map_append, List.map_append, hpos1]
        _ = (update_slice_membership (cur ++ (q :: q2 :: rest2).map mkItem)).map (·.1) := by
            rw [show (cur ++ [mkItem q]) ++ (q2 :: rest2).map mkItem =
              cur ++ (q :: q2 :: rest2).map mkItem by simp [List.append_assoc]]

theorem registerSeq_radial (ps : List Pos) (hne : ps ≠ []) :
    registerSeq (ps.map mkItem) = (update_slice_membership (ps.map mkItem)).map (·.1) := by
  unfold registerSeq
  simpa using foldlM_add_radial ps [] (by simp) hne

/-- C1 amended: every registration sequence of radial items at pairwise
distinct positions produces a partition of the 16 slices: the
concatenation of all assigned slice lists has no duplicate (each slice
assigned at most once, so the per-item sets are pairwise disjoint) and
covers exactly the slices 0..15. -/
theorem c1_distinct_radial_partition (ps : List Pos) (hne : ps ≠ []) (hnd : ps.Nodup) :
    ∃ its, registerSeq (ps.map mkItem) = some its ∧
      (its.flatMap SItem.slices).Nodup ∧
      (its.flatMap SItem.slices).toFinset = Finset.range 16 := by
  obtain ⟨its, used, hupd, hnodup, hfin, -, -⟩ := update_distinct_partition ps hne hnd
  refine ⟨its, ?_, hnodup, hfin⟩
  rw [registerSeq_radial ps hne, hupd]
  rfl

/-- C1 witness at the two-position registration sequence [N, E]. -/
theorem c1_witness :
    (([Pos.N, Pos.E] : List Pos) ≠ [] ∧ ([Pos.N, Pos.E] : List Pos).Nodup) ∧
    ∃ its, registerSeq ([Pos.N, Pos.E].map mkItem) = some its ∧
      (its.flatMap SItem.slices).Nodup ∧
      (its.flatMap SItem.slices).toFinset = Finset.range 16 :=
  ⟨⟨by decide, by decide⟩,
    c1_distinct_radial_partition [Pos.N, Pos.E] (by decide) (by decide)⟩

/-- C4 amended: for every non-empty list of registered radial positions
the redistribution loop terminates -- within 16 passes the used list
reaches length at least 16, falsifying the loop guard; with pairwise
distinct positions the used slices are exactly all 16; and a single
registered radial position ends up owning all 16 slices. -/
theorem c4_termination_and_single :
    (∀ ps : List Pos, ps ≠ [] →
      ∃ its used, update_slice_membership (ps.map mkItem) = some (its, used) ∧
        16 ≤ used.length)
    ∧ (∀ ps : List Pos, ps ≠ [] → ps.Nodup →
      ∃ its used, update_slice_membership (ps.map mkItem) = some (its, used) ∧
        used.toFinset = Finset.range 16)
    ∧ ∀ p : Pos, ∃ it, registerSeq [mkItem p] = some [it] ∧
        it.slices.toFinset = Finset.range 16 := by
  refine ⟨?_, ?_, ?_⟩
  · intro ps hne
    have hne' : (ps.map fun p => (⟨some p, slicesTable p⟩ : SItem)) ≠ [] := by
      intro h
      exact hne (List.map_eq_nil_iff.mp h)
    obtain ⟨-, hlenF, -⟩ := sliceLoop_spec 16
      (ps.map fun p => ⟨some p, slicesTable p⟩) (ps.flatMap slicesTable) (Inv_init ps) hne'
    refine ⟨(sliceLoop 16 (ps.map fun p => (⟨some p, slicesTable p⟩ : SItem))
        (ps.flatMap slicesTable)).1,
      (sliceLoop 16 (ps.map fun p => (⟨some p, slicesTable p⟩ : SItem))
        (ps.flatMap slicesTable)).2, ?_, ?_⟩
    · rw [update_slice_membership_radial]
    · omega
  · intro ps hne hnd
    obtain ⟨its, used, hupd, -, -, hfin, -⟩ := update_distinct_partition ps hne hnd
    exact ⟨its, used, hupd, hfin⟩
  · intro p
    cases p <;> exact ⟨_, rfl, by decide⟩

/-- C4 witness at the singleton position list [S]. -/
theorem c4_witness :
    (([Pos.S] : List Pos) ≠ []) ∧
    ∃ its used, update_slice_membership ([Pos.S].map mkItem) = some (its, used) ∧
      16 ≤ used.length :=
  ⟨by decide, c4_termination_and_single.1 [Pos.S] (by decide)⟩

end RadialMenu
